import Mathlib

/-!
Verification of the batch `.wat` → `.wasm` converter (`compile.py`).

The script is:

  wats = glob("wat/*.wat")
  for w in wats:
      cmd = "./wat2wasm "+w+" -o wasm/"+w.split("/")[-1].replace(".wat",".wasm")
      print(cmd)
      os.system(cmd)

The shallow embedding below models the Python string primitives the script
uses (`str.split` with a one-character separator, `str.replace`), the glob
call (as a filter over a directory listing and as a predicate over candidate
relative paths), the per-file string transformation, and the loop's
observable effects (print then execute per file, with `os.system`'s exit
status supplied by an oracle and discarded, exactly as the script discards
it).
-/

set_option linter.unusedVariables false

/-- Characters of the pattern string ".wat" used by
`w.split("/")[-1].replace(".wat",".wasm")` in compile.py line 7. -/
def watChars : List Char := ".wat".data

/-- Characters of the replacement string ".wasm" from compile.py line 7. -/
def wasmChars : List Char := ".wasm".data

/-- Python `str.split` with a one-character separator: splits on every
occurrence of `sep`; the result is always nonempty (splitting the empty
string gives one empty group, as in Python). -/
def pySplit (sep : Char) : List Char → List (List Char)
  | [] => [[]]
  | c :: rest =>
    match pySplit sep rest with
    | [] => [[c]]
    | g :: gs => if c = sep then [] :: g :: gs else (c :: g) :: gs

/-- Python `str.replace pat repl`, fuelled so the recursion is structural:
scan left to right; at each position, if `pat` (nonempty) starts here, emit
`repl` and skip `pat.length` characters, else copy one character. With
`fuel ≥` the length of the input (as in `pyReplace`) the fuel never runs
out, since every step consumes at least one character. -/
def replaceFuel (pat repl : List Char) : Nat → List Char → List Char
  | _, [] => []
  | 0, s => s
  | fuel + 1, c :: rest =>
    if pat.isPrefixOf (c :: rest) && !pat.isEmpty then
      repl ++ replaceFuel pat repl fuel ((c :: rest).drop pat.length)
    else
      c :: replaceFuel pat repl fuel rest

/-- Python `s.replace(pat, repl)` for nonempty `pat` (the script's only use
has `pat = ".wat"`): every non-overlapping occurrence, scanned left to
right, is replaced. -/
def pyReplace (pat repl s : List Char) : List Char :=
  replaceFuel pat repl s.length s

/-- `w.split("/")[-1]` from compile.py line 7: the last path segment.
`pySplit` always returns a nonempty list, so Python's `[-1]` is total and
`getLastD` never falls back to its default. -/
def basename (w : String) : String :=
  String.mk ((pySplit '/' w.data).getLastD [])

/-- The derived output file name from compile.py line 7: the base name with
every occurrence of ".wat" replaced by ".wasm" (Python `str.replace`). -/
def outName (w : String) : String :=
  String.mk (pyReplace watChars wasmChars (basename w).data)

/-- The derived output path `"wasm/" ++ outName w`, as assembled inside the
command string on compile.py line 7. -/
def outPath (w : String) : String := "wasm/" ++ outName w

/-- The constructed command string of compile.py line 7:
`"./wat2wasm "+w+" -o wasm/"+w.split("/")[-1].replace(".wat",".wasm")`. -/
def cmd (w : String) : String :=
  "./wat2wasm " ++ w ++ " -o wasm/" ++ outName w

/-- A directory entry is hidden iff its name starts with '.'. Python's
`glob` with pattern component "*.wat" never matches hidden names. -/
def hiddenName (n : List Char) : Bool :=
  match n with
  | [] => false
  | c :: _ => c == '.'

/-- Semantics of the name component "*.wat" of `glob("wat/*.wat")`
(compile.py line 4): an entry of the directory is selected iff it is not
hidden and its name ends in ".wat". -/
def isWatName (n : String) : Bool :=
  !hiddenName n.data && watChars.isSuffixOf n.data

/-- `glob("wat/*.wat")` (compile.py line 4) as a function of the listing of
directory "wat": keep the matching entries in listing order and prepend the
directory, giving the relative paths the loop iterates over. A missing or
empty directory is the empty listing. -/
def globDir (entries : List String) : List String :=
  (entries.filter isWatName).map (fun n => "wat/" ++ n)

/-- `glob("wat/*.wat")` as a predicate on a candidate relative path: the
path must consist of exactly two segments, the first being "wat" and the
second a non-hidden name ending in ".wat" ('*' crosses neither '/' nor a
leading dot). -/
def globMatch (p : String) : Bool :=
  match pySplit '/' p.data with
  | [d, n] => d == "wat".data && !hiddenName n && watChars.isSuffixOf n
  | _ => false

/-- The paths selected by `glob("wat/*.wat")` out of a universe of candidate
relative paths. -/
def globList (paths : List String) : List String :=
  paths.filter globMatch

/-- Whether `pat` occurs as a contiguous substring (Python's `in`). -/
def occursB (pat : List Char) : List Char → Bool
  | [] => pat.isEmpty
  | c :: rest => pat.isPrefixOf (c :: rest) || occursB pat rest

/-- The observable effects of the loop of compile.py lines 6-9: each
iteration prints the command (line 8) and then executes it (line 9). -/
inductive ConvEvent where
  | printed : String → ConvEvent
  | executed : String → ConvEvent
deriving DecidableEq

/-- The loop of compile.py lines 6-9 as a trace of effects. `status` is an
oracle for the exit value `os.system` would return for a command; it is
bound and immediately discarded, mirroring line 9, where the return value
of `os.system(cmd)` is ignored. -/
def runBatch (status : String → Int) : List String → List ConvEvent
  | [] => []
  | w :: ws =>
    let c := cmd w
    let rc : Int := status c
    ConvEvent.printed c :: ConvEvent.executed c :: runBatch status ws

/-- Following the words of the spec (claims C2 and C3), not the source: the
output name obtained by rewriting only the trailing ".wat" extension of a
base name to ".wasm", leaving a name without that extension unchanged. Used
to compare the spec's description of the derivation with the source's
`str.replace`. -/
def specExtReplace (n : List Char) : List Char :=
  if watChars.isSuffixOf n then n.take (n.length - 4) ++ wasmChars else n

/-- Following the words of the spec (claim C2): output path = fixed output
directory plus the base name with its extension replaced. -/
def specOutPath (w : String) : String :=
  "wasm/" ++ String.mk (specExtReplace (basename w).data)

/-! ### Helper lemmas about the embedded string primitives -/

lemma watChars_eq : watChars = ['.', 'w', 'a', 't'] := by decide

lemma replaceFuel_nil (pat repl : List Char) (fuel : Nat) :
    replaceFuel pat repl fuel [] = [] := by
  cases fuel <;> rfl

lemma replaceFuel_zero (pat repl : List Char) (s : List Char) :
    replaceFuel pat repl 0 s = s := by
  cases s <;> rfl

lemma replaceFuel_succ (pat repl : List Char) (fuel : Nat) (c : Char)
    (rest : List Char) :
    replaceFuel pat repl (fuel + 1) (c :: rest) =
      if pat.isPrefixOf (c :: rest) && !pat.isEmpty then
        repl ++ replaceFuel pat repl fuel ((c :: rest).drop pat.length)
      else
        c :: replaceFuel pat repl fuel rest := rfl

lemma pySplit_ne_nil (sep : Char) (s : List Char) : pySplit sep s ≠ [] := by
  cases s with
  | nil => simp [pySplit]
  | cons c rest =>
    cases h : pySplit sep rest with
    | nil => simp [pySplit, h]
    | cons g gs =>
      simp only [pySplit, h]
      split <;> simp

lemma pySplit_sep_not_mem (sep : Char) :
    ∀ (s : List Char), ∀ g ∈ pySplit sep s, sep ∉ g := by
  intro s
  induction s with
  | nil =>
    intro g hg
    simp [pySplit] at hg
    simp [hg]
  | cons c rest ih =>
    intro g hg
    cases h : pySplit sep rest with
    | nil => exact absurd h (pySplit_ne_nil sep rest)
    | cons g0 gs =>
      simp only [pySplit, h] at hg
      by_cases hc : c = sep
      · rw [if_pos hc] at hg
        rcases List.mem_cons.mp hg with hg | hg
        · simp [hg]
        · exact ih g (h ▸ hg)
      · rw [if_neg hc] at hg
        rcases List.mem_cons.mp hg with hg | hg
        · subst hg
          intro hmem
          rcases List.mem_cons.mp hmem with h1 | h1
          · exact hc h1.symm
          · exact ih g0 (h ▸ List.mem_cons_self g0 gs) h1
        · exact ih g (h ▸ List.mem_cons_of_mem g0 hg)

lemma occursB_iff (pat : List Char) :
    ∀ (s : List Char), occursB pat s = true ↔ ∃ u v, s = u ++ (pat ++ v) := by
  intro s
  induction s with
  | nil =>
    simp only [occursB, List.isEmpty_iff]
    constructor
    · intro h
      exact ⟨[], [], by simp [h]⟩
    · rintro ⟨u, v, h⟩
      rcases List.append_eq_nil.mp h.symm with ⟨hu, hpv⟩
      exact (List.append_eq_nil.mp hpv).1
  | cons c rest ih =>
    simp only [occursB, Bool.or_eq_true, List.isPrefixOf_iff_prefix, ih]
    constructor
    · rintro (⟨t, ht⟩ | ⟨u, v, h⟩)
      · exact ⟨[], t, by simp [← ht]⟩
      · exact ⟨c :: u, v, by simp [h]⟩
    · rintro ⟨u, v, h⟩
      cases u with
      | nil =>
        left
        exact ⟨v, by simpa using h.symm⟩
      | cons a u =>
        right
        rw [List.cons_append] at h
        injection h with h1 h2
        exact ⟨u, v, h2⟩

lemma replace_no_occ (pat repl : List Char) :
    ∀ (fuel : Nat) (s : List Char), occursB pat s = false →
      replaceFuel pat repl fuel s = s := by
  intro fuel
  induction fuel with
  | zero => intro s h; exact replaceFuel_zero pat repl s
  | succ fuel ih =>
    intro s h
    cases s with
    | nil => exact replaceFuel_nil pat repl _
    | cons c rest =>
      simp only [occursB, Bool.or_eq_false_iff] at h
      rw [replaceFuel_succ, if_neg, ih rest h.2]
      simp [h.1]

lemma wat_overlap (t : List Char)
    (h : watChars.isPrefixOf (t ++ watChars) = true) :
    t = [] ∨ 4 ≤ t.length := by
  rw [List.isPrefixOf_iff_prefix] at h
  obtain ⟨r, hr⟩ := h
  match t with
  | [] => exact Or.inl rfl
  | [a] =>
    exfalso
    rw [watChars_eq] at hr
    simp only [List.cons_append, List.nil_append] at hr
    injection hr with h1 hr; injection hr with h2 hr
    exact absurd h2 (by decide)
  | [a, b] =>
    exfalso
    rw [watChars_eq] at hr
    simp only [List.cons_append, List.nil_append] at hr
    injection hr with h1 hr; injection hr with h2 hr
    injection hr with h3 hr
    exact absurd h3 (by decide)
  | [a, b, c] =>
    exfalso
    rw [watChars_eq] at hr
    simp only [List.cons_append, List.nil_append] at hr
    injection hr with h1 hr; injection hr with h2 hr
    injection hr with h3 hr; injection hr with h4 hr
    exact absurd h4 (by decide)
  | a :: b :: c :: d :: t =>
    right
    simp only [List.length_cons]
    omega

lemma replace_suffix :
    ∀ (fuel : Nat) (s : List Char), s.length ≤ fuel → watChars <:+ s →
      wasmChars <:+ replaceFuel watChars wasmChars fuel s := by
  intro fuel
  induction fuel with
  | zero =>
    intro s hl hs
    exfalso
    rw [List.length_eq_zero.mp (Nat.le_zero.mp hl)] at hs
    rw [List.suffix_nil] at hs
    exact absurd hs (by decide)
  | succ fuel ih =>
    intro s hl hs
    obtain ⟨t, ht⟩ := hs
    cases s with
    | nil =>
      exact absurd (List.append_eq_nil.mp ht).2 (by decide)
    | cons c rest =>
      rw [replaceFuel_succ]
      cases hp : watChars.isPrefixOf (c :: rest) with
      | true =>
        rw [if_pos (by decide)]
        rw [← ht] at hp
        rcases wat_overlap t hp with h0 | h4
        · subst h0
          rw [List.nil_append] at ht
          have hdrop : (c :: rest).drop watChars.length = [] := by
            rw [← ht]; decide
          rw [hdrop, replaceFuel_nil]
          simp
        · have hdrop : (c :: rest).drop watChars.length =
              t.drop 4 ++ watChars := by
            rw [← ht]
            have h4' : watChars.length = 4 := by decide
            rw [h4', List.drop_append_of_le_length h4]
          have hlen : ((c :: rest).drop watChars.length).length ≤ fuel := by
            simp only [List.length_drop]
            have : watChars.length = 4 := by decide
            simp only [List.length_cons] at hl ⊢
            omega
          have hrec := ih _ hlen (hdrop ▸ List.suffix_append (t.drop 4) watChars)
          exact hrec.trans (List.suffix_append wasmChars _)
      | false =>
        rw [if_neg (by decide)]
        cases t with
        | nil =>
          exfalso
          rw [List.nil_append] at ht
          rw [← ht] at hp
          have : watChars.isPrefixOf watChars = true := by decide
          rw [this] at hp
          exact absurd hp (by decide)
        | cons a t =>
          rw [List.cons_append] at ht
          injection ht with h1 h2
          have hrec := ih rest (by simp only [List.length_cons] at hl; omega)
            ⟨t, h2⟩
          exact hrec.trans (List.suffix_cons c _)

lemma replace_no_slash :
    ∀ (fuel : Nat) (s : List Char), '/' ∉ s →
      '/' ∉ replaceFuel watChars wasmChars fuel s := by
  intro fuel
  induction fuel with
  | zero =>
    intro s h
    rw [replaceFuel_zero]
    exact h
  | succ fuel ih =>
    intro s h
    cases s with
    | nil => simp [replaceFuel_nil]
    | cons c rest =>
      rw [replaceFuel_succ]
      split
      · intro hmem
        rcases List.mem_append.mp hmem with hm | hm
        · exact absurd hm (by decide)
        · exact ih _ (fun hx => h (List.mem_of_mem_drop hx)) hm
      · intro hmem
        rcases List.mem_cons.mp hmem with hm | hm
        · exact h (hm ▸ List.mem_cons_self c rest)
        · exact ih rest (fun hx => h (List.mem_cons_of_mem c hx)) hm

lemma replace_unique :
    ∀ (fuel : Nat) (s stem : List Char), s.length ≤ fuel →
      s = stem ++ watChars →
      (∀ u v, s = u ++ (watChars ++ v) → v = []) →
      replaceFuel watChars wasmChars fuel s = stem ++ wasmChars := by
  intro fuel
  induction fuel with
  | zero =>
    intro s stem hl hs huniq
    exfalso
    rw [List.length_eq_zero.mp (Nat.le_zero.mp hl)] at hs
    have := congrArg List.length hs
    simp [watChars_eq] at this
  | succ fuel ih =>
    intro s stem hl hs huniq
    cases s with
    | nil =>
      exfalso
      have := congrArg List.length hs
      simp [watChars_eq] at this
    | cons c rest =>
      rw [replaceFuel_succ]
      cases hp : watChars.isPrefixOf (c :: rest) with
      | true =>
        rw [if_pos (by decide)]
        obtain ⟨t, ht⟩ := List.isPrefixOf_iff_prefix.mp hp
        have htnil : t = [] := huniq [] t (by rw [List.nil_append, ← ht])
        subst htnil
        rw [List.append_nil] at ht
        have hstem : stem = [] := by
          have h1 : stem ++ watChars = watChars := hs.symm.trans ht.symm
          have h2 := congrArg List.length h1
          simp only [List.length_append] at h2
          have h3 : stem.length = 0 := by omega
          exact List.length_eq_zero.mp h3
        subst hstem
        have hdrop : (c :: rest).drop watChars.length = [] := by
          rw [← ht]; decide
        rw [hdrop, replaceFuel_nil]
        simp
      | false =>
        rw [if_neg (by decide)]
        cases stem with
        | nil =>
          exfalso
          rw [List.nil_append] at hs
          rw [hs] at hp
          have : watChars.isPrefixOf watChars = true := by decide
          rw [this] at hp
          exact absurd hp (by decide)
        | cons a stem =>
          rw [List.cons_append] at hs
          injection hs with h1 h2
          subst h1
          have hrec := ih rest stem
            (by simp only [List.length_cons] at hl; omega) h2
            (fun u v huv => huniq (c :: u) v (by rw [List.cons_append, ← huv]))
          rw [hrec, List.cons_append]

lemma globMatch_parts (p : String) (h : globMatch p = true) :
    ∃ n : List Char, pySplit '/' p.data = ["wat".data, n] ∧
      hiddenName n = false ∧ watChars <:+ n ∧ (basename p).data = n := by
  unfold globMatch at h
  rcases hsp : pySplit '/' p.data with _ | ⟨d, _ | ⟨n, _ | ⟨x, l⟩⟩⟩ <;>
    rw [hsp] at h
  · simp at h
  · simp at h
  · simp only [Bool.and_eq_true, beq_iff_eq, Bool.not_eq_true',
      List.isSuffixOf_iff_suffix] at h
    have hwat : "wat".data = ['w', 'a', 't'] := rfl
    refine ⟨n, ?_, h.1.2, h.2, ?_⟩
    · rw [h.1.1, hwat]
    · show (pySplit '/' p.data).getLastD [] = n
      rw [hsp]
      rfl
  · simp at h

lemma runBatch_nil (status : String → Int) : runBatch status [] = [] := rfl

lemma runBatch_cons (status : String → Int) (w : String) (ws : List String) :
    runBatch status (w :: ws) =
      ConvEvent.printed (cmd w) :: ConvEvent.executed (cmd w) ::
        runBatch status ws := rfl

/-! ### Claim theorems -/

/-- C1: for every input path matched by `glob("wat/*.wat")`, the
constructed command string is exactly the tool path, the input path, the
literal output flag and the computed output path, space-separated, in that
order; in particular for input "wat/a.wat" it is exactly
"./wat2wasm wat/a.wat -o wasm/a.wasm". -/
theorem cmd_shape (p : String) (h : globMatch p = true) :
    cmd p = "./wat2wasm" ++ " " ++ p ++ " " ++ "-o" ++ " " ++ outPath p ∧
      cmd "wat/a.wat" = "./wat2wasm wat/a.wat -o wasm/a.wasm" := by
  constructor
  · have h1 : ("./wat2wasm " : String) = "./wat2wasm" ++ " " := by decide
    have h2 : (" -o wasm/" : String) = " " ++ "-o" ++ " " ++ "wasm/" := by
      decide
    show "./wat2wasm " ++ p ++ " -o wasm/" ++ outName p =
      "./wat2wasm" ++ " " ++ p ++ " " ++ "-o" ++ " " ++ ("wasm/" ++ outName p)
    rw [h1, h2]
    simp only [String.append_assoc]
  · decide

/-- Witness for cmd_shape at the concrete matched input "wat/a.wat". -/
theorem cmd_shape_witness :
    globMatch "wat/a.wat" = true ∧
      (cmd "wat/a.wat" =
          "./wat2wasm" ++ " " ++ "wat/a.wat" ++ " " ++ "-o" ++ " " ++
            outPath "wat/a.wat" ∧
        cmd "wat/a.wat" = "./wat2wasm wat/a.wat -o wasm/a.wasm") :=
  ⟨by decide, cmd_shape "wat/a.wat" (by decide)⟩

/-- C4: enumeration is extension-exact: from an input directory containing
a.wat, b.wat and c.txt, exactly wat/a.wat and wat/b.wat are selected and
c.txt is ignored; in general a (non-hidden) entry is selected iff its name
ends in ".wat". -/
theorem glob_extension_exact (n : String) (h : hiddenName n.data = false) :
    globDir ["a.wat", "b.wat", "c.txt"] = ["wat/a.wat", "wat/b.wat"] ∧
      (isWatName n = true ↔ watChars <:+ n.data) := by
  constructor
  · decide
  · unfold isWatName
    rw [h]
    simp [List.isSuffixOf_iff_suffix]

/-- Witness for glob_extension_exact at the non-hidden entry "c.txt". -/
theorem glob_extension_exact_witness :
    hiddenName ("c.txt" : String).data = false ∧
      (globDir ["a.wat", "b.wat", "c.txt"] = ["wat/a.wat", "wat/b.wat"] ∧
        (isWatName "c.txt" = true ↔
          watChars <:+ ("c.txt" : String).data)) :=
  ⟨by decide, glob_extension_exact "c.txt" (by decide)⟩

/-- C5: per-input independence: the trace of the run does not depend on the
exit statuses returned by the external tool (the script never inspects
them), the run emits two events for every input (none is skipped because of
a prior failure), and every input's execution event is present. -/
theorem run_status_independent (s1 s2 : String → Int) (ws : List String) :
    runBatch s1 ws = runBatch s2 ws ∧
      (runBatch s1 ws).length = 2 * ws.length ∧
      ∀ w ∈ ws, ConvEvent.executed (cmd w) ∈ runBatch s1 ws := by
  induction ws with
  | nil => exact ⟨rfl, rfl, by simp [runBatch_nil]⟩
  | cons w ws ih =>
    refine ⟨?_, ?_, ?_⟩
    · rw [runBatch_cons, runBatch_cons, ih.1]
    · rw [runBatch_cons]
      simp only [List.length_cons, ih.2.1, List.length_cons]
      omega
    · intro v hv
      rw [runBatch_cons]
      rcases List.mem_cons.mp hv with hv | hv
      · subst hv
        exact List.mem_cons_of_mem _ (List.mem_cons_self _ _)
      · exact List.mem_cons_of_mem _
          (List.mem_cons_of_mem _ (ih.2.2 v hv))

/-- Witness for run_status_independent with a failing (nonzero) and a
succeeding status oracle over a two-input batch. -/
theorem run_status_independent_witness :
    ("wat/b.wat" : String) ∈ (["wat/a.wat", "wat/b.wat"] : List String) ∧
      ConvEvent.executed (cmd "wat/b.wat") ∈
        runBatch (fun _ => 1) ["wat/a.wat", "wat/b.wat"] :=
  ⟨by decide,
    (run_status_independent (fun _ => 1) (fun _ => 0)
        ["wat/a.wat", "wat/b.wat"]).2.2 "wat/b.wat" (by decide)⟩

/-- C6: no-op on empty input: if the input directory has no entry matching
"*.wat" (in particular when it is empty or does not exist, in which case
its listing is empty), the glob selects nothing, zero command strings are
constructed and zero invocations occur. -/
theorem run_empty (status : String → Int) (entries : List String)
    (h : ∀ n ∈ entries, isWatName n = false) :
    globDir entries = [] ∧ (globDir entries).map cmd = [] ∧
      runBatch status (globDir entries) = [] := by
  have hg : globDir entries = [] := by
    unfold globDir
    have hfil : entries.filter isWatName = [] := by
      rw [List.filter_eq_nil_iff]
      intro a ha
      simp [h a ha]
    rw [hfil]
    rfl
  rw [hg]
  exact ⟨rfl, rfl, rfl⟩

/-- Witness for run_empty on the listing ["c.txt"] (no .wat entry). -/
theorem run_empty_witness :
    (∀ n ∈ (["c.txt"] : List String), isWatName n = false) ∧
      (globDir ["c.txt"] = [] ∧ (globDir ["c.txt"]).map cmd = [] ∧
        runBatch (fun _ => 0) (globDir ["c.txt"]) = []) :=
  ⟨by decide, run_empty (fun _ => 0) ["c.txt"] (by decide)⟩

/-- C7: idempotence of the drive logic: two runs over the same unchanged
listing construct the same command lines and the same derived output paths,
and each run does the full work, one command per input (no incremental skip
logic). -/
theorem run_idempotent (ws1 ws2 : List String) (h : ws1 = ws2) :
    ws1.map cmd = ws2.map cmd ∧ ws1.map outPath = ws2.map outPath ∧
      (ws2.map cmd).length = ws2.length := by
  subst h
  exact ⟨rfl, rfl, by simp⟩

/-- Witness for run_idempotent on a concrete one-element listing. -/
theorem run_idempotent_witness :
    (["wat/a.wat"] : List String) = ["wat/a.wat"] ∧
      ((["wat/a.wat"] : List String).map cmd = ["wat/a.wat"].map cmd ∧
        (["wat/a.wat"] : List String).map outPath =
          ["wat/a.wat"].map outPath ∧
        ((["wat/a.wat"] : List String).map cmd).length =
          (["wat/a.wat"] : List String).length) :=
  ⟨rfl, run_idempotent ["wat/a.wat"] ["wat/a.wat"] rfl⟩

/-- C8: temporal ordering of effects: the trace of a run is exactly, for
each input in listing order, the printed command followed immediately by
its (synchronous) execution, with all events of one input strictly before
all events of the next. -/
theorem run_trace_order (status : String → Int) (ws : List String) :
    runBatch status ws =
      (ws.map (fun w =>
        [ConvEvent.printed (cmd w), ConvEvent.executed (cmd w)])).flatten := by
  induction ws with
  | nil => rfl
  | cons w ws ih =>
    rw [runBatch_cons, List.map_cons, List.flatten_cons, ih]
    rfl

/-- C9: enumeration is non-recursive and skips hidden files: a file in a
subdirectory of the input directory (wat/sub/x.wat) and a .wat file whose
base name begins with a dot (wat/.hidden.wat) are never matched, hence
never selected from any candidate listing, and no command is constructed
for them. -/
theorem glob_nonrecursive_no_hidden :
    globMatch "wat/sub/x.wat" = false ∧
      globMatch "wat/.hidden.wat" = false ∧
      ∀ paths : List String,
        "wat/sub/x.wat" ∉ globList paths ∧
          "wat/.hidden.wat" ∉ globList paths := by
  refine ⟨by decide, by decide, ?_⟩
  intro paths
  constructor <;>
  · intro hmem
    have hsel := (List.mem_filter.mp hmem).2
    exact absurd hsel (by decide)

/-- Witness for glob_nonrecursive_no_hidden on a concrete listing that
contains the subdirectory file and the hidden file. -/
theorem glob_nonrecursive_no_hidden_witness :
    "wat/sub/x.wat" ∉
        globList ["wat/sub/x.wat", "wat/.hidden.wat", "wat/a.wat"] ∧
      "wat/.hidden.wat" ∉
        globList ["wat/sub/x.wat", "wat/.hidden.wat", "wat/a.wat"] :=
  glob_nonrecursive_no_hidden.2.2
    ["wat/sub/x.wat", "wat/.hidden.wat", "wat/a.wat"]

/-- C10: output-path invariant: for every path matched by the glob, the
computed output path is the fixed prefix "wasm/" followed by the output
file name, it ends in ".wasm", and the portion after "wasm/" contains no
path separator, so every output lands directly in the fixed output
directory. -/
theorem outPath_invariant (p : String) (h : globMatch p = true) :
    (outPath p).data = "wasm/".data ++ (outName p).data ∧
      wasmChars <:+ (outPath p).data ∧
      '/' ∉ (outName p).data := by
  obtain ⟨n, hsp, hhid, hsuf, hbase⟩ := globMatch_parts p h
  have hb : (outName p).data = pyReplace watChars wasmChars n := by
    show pyReplace watChars wasmChars (basename p).data = _
    rw [hbase]
  have hmemn : n ∈ pySplit '/' p.data := by
    rw [hsp]
    simp
  have hnosl : '/' ∉ n := pySplit_sep_not_mem '/' p.data n hmemn
  refine ⟨String.data_append _ _, ?_, ?_⟩
  · show wasmChars <:+ ("wasm/" ++ outName p).data
    rw [String.data_append, hb]
    exact (replace_suffix n.length n (le_refl _) hsuf).trans
      (List.suffix_append _ _)
  · rw [hb]
    exact replace_no_slash n.length n hnosl

/-- Witness for outPath_invariant at the concrete matched input
"wat/a.wat". -/
theorem outPath_invariant_witness :
    globMatch "wat/a.wat" = true ∧
      ((outPath "wat/a.wat").data =
          "wasm/".data ++ (outName "wat/a.wat").data ∧
        wasmChars <:+ (outPath "wat/a.wat").data ∧
        '/' ∉ (outName "wat/a.wat").data) :=
  ⟨by decide, outPath_invariant "wat/a.wat" (by decide)⟩

/-- C2 counterexample: the input path "wat/a.wat.wat" is matched by the
glob, yet the code derives the output path "wasm/a.wasm.wasm" (every
occurrence of ".wat" in the base name is replaced), not the
extension-replacement result "wasm/a.wat.wasm" described by the claim. -/
theorem outPath_not_extension_replace :
    globMatch "wat/a.wat.wat" = true ∧
      specOutPath "wat/a.wat.wat" = "wasm/a.wat.wasm" ∧
      outPath "wat/a.wat.wat" = "wasm/a.wasm.wasm" ∧
      outPath "wat/a.wat.wat" ≠ specOutPath "wat/a.wat.wat" :=
  ⟨by decide, by decide, by decide, by decide⟩

/-- C2 amended: for every matched input path whose base filename contains
".wat" only as its trailing extension (no earlier occurrence of the
substring), the derived output path is the base name with the extension
replaced by ".wasm" prefixed by "wasm/", exactly as the claim describes;
for base names with further ".wat" occurrences every occurrence is
replaced. In particular input "wat/a.wat" derives output "wasm/a.wasm". -/
theorem outPath_ext_replace (p : String)
    (h : globMatch p = true)
    (hone : occursB watChars (basename p).data.dropLast = false) :
    outPath p = specOutPath p ∧ outPath "wat/a.wat" = "wasm/a.wasm" := by
  refine ⟨?_, by decide⟩
  obtain ⟨n, hsp, hhid, hsuf, hbase⟩ := globMatch_parts p h
  obtain ⟨stem, hstem⟩ := hsuf
  rw [hbase] at hone
  have huniq : ∀ u v, n = u ++ (watChars ++ v) → v = [] := by
    intro u v huv
    by_contra hne
    have hassoc : u ++ (watChars ++ v) = (u ++ watChars) ++ v :=
      (List.append_assoc u watChars v).symm
    have hdl : n.dropLast = u ++ (watChars ++ v.dropLast) := by
      rw [huv, hassoc, List.dropLast_append_of_ne_nil (u ++ watChars) hne,
        List.append_assoc]
    have hocc : occursB watChars n.dropLast = true :=
      (occursB_iff watChars n.dropLast).mpr ⟨u, v.dropLast, hdl⟩
    rw [hone] at hocc
    exact absurd hocc (by decide)
  have hrep : pyReplace watChars wasmChars n = stem ++ wasmChars := by
    unfold pyReplace
    exact replace_unique n.length n stem (le_refl _) hstem.symm huniq
  have hlen : stem.length = n.length - 4 := by
    have hl := congrArg List.length hstem
    simp only [List.length_append] at hl
    have h4 : watChars.length = 4 := by decide
    omega
  have hspec : specExtReplace n = stem ++ wasmChars := by
    unfold specExtReplace
    rw [if_pos (List.isSuffixOf_iff_suffix.mpr ⟨stem, hstem⟩)]
    rw [hlen.symm, ← hstem, List.take_left]
  show "wasm/" ++ String.mk (pyReplace watChars wasmChars (basename p).data) =
    "wasm/" ++ String.mk (specExtReplace (basename p).data)
  rw [hbase, hrep, hspec]

/-- Witness for outPath_ext_replace at the concrete matched input
"wat/a.wat", whose base name contains ".wat" only as its extension. -/
theorem outPath_ext_replace_witness :
    globMatch "wat/a.wat" = true ∧
      occursB watChars (basename "wat/a.wat").data.dropLast = false ∧
      (outPath "wat/a.wat" = specOutPath "wat/a.wat" ∧
        outPath "wat/a.wat" = "wasm/a.wasm") :=
  ⟨by decide, by decide,
    outPath_ext_replace "wat/a.wat" (by decide) (by decide)⟩

/-- C3 counterexample: the substitution of compile.py line 7 is not a
suffix-only replace: for the base name "b.wat.wat" the non-trailing
occurrence of ".wat" is also rewritten (the result is "b.wasm.wasm", not
"b.wat.wasm" with the earlier occurrence left intact), and for "c.watx",
which does not end in ".wat", the substitution is not a no-op (the result
is "c.wasmx", not "c.watx" unchanged). -/
theorem replace_not_suffix_only :
    pyReplace watChars wasmChars "b.wat.wat".data = "b.wasm.wasm".data ∧
      pyReplace watChars wasmChars "b.wat.wat".data ≠ "b.wat.wasm".data ∧
      pyReplace watChars wasmChars "c.watx".data = "c.wasmx".data ∧
      pyReplace watChars wasmChars "c.watx".data ≠ "c.watx".data :=
  ⟨by decide, by decide, by decide, by decide⟩

/-- C3 amended: the extension substitution is a literal substring replace:
every non-overlapping occurrence of ".wat", scanned left to right, is
rewritten to ".wasm"; a base name containing no occurrence of ".wat" at all
is left unchanged, and for a name ending in ".wat" the trailing suffix is
among the rewritten occurrences (the result ends in ".wasm"). -/
theorem replace_substring_semantics (s : List Char) :
    (occursB watChars s = false → pyReplace watChars wasmChars s = s) ∧
      (watChars <:+ s → wasmChars <:+ pyReplace watChars wasmChars s) := by
  constructor
  · intro h
    unfold pyReplace
    exact replace_no_occ watChars wasmChars s.length s h
  · intro h
    unfold pyReplace
    exact replace_suffix s.length s (le_refl _) h

/-- Witness for replace_substring_semantics: "c.txt" has no occurrence and
is left unchanged; "a.wat" ends in ".wat" and the result ends in ".wasm". -/
theorem replace_substring_semantics_witness :
    (occursB watChars "c.txt".data = false ∧
        pyReplace watChars wasmChars "c.txt".data = "c.txt".data) ∧
      (watChars <:+ "a.wat".data ∧
        wasmChars <:+ pyReplace watChars wasmChars "a.wat".data) :=
  ⟨⟨by decide, (replace_substring_semantics "c.txt".data).1 (by decide)⟩,
    ⟨by decide, (replace_substring_semantics "a.wat".data).2 (by decide)⟩⟩
